import Mathlib

/-!
Verification of the reversible arithmetic circuit synthesis engine of this
repository (fixed-value comparator, piecewise-linear rotation, weighted adder,
two's-complement subtractor composition and linear rotation synthesis).

Circuits built from classical reversible gates (X, CNOT, Toffoli, OR) are
modelled as lists of gates acting on a state assigning a Boolean to every
qubit position; running a circuit is folding gate application over the list.
All gates used by the comparator permute computational basis states, so the
result of running a circuit on a basis state is again a single basis state:
statements about "the outcome with probability 1" become plain equations.
-/

/-- Elementary reversible gates emitted by `FixedValueComparator._build`
(qubit positions are global indices).  `x`, `cx`, `ccx` are the standard
NOT / controlled-NOT / Toffoli gates of the host circuit library.
Modelled from the spec: the `OR` gate (`qiskit.aqua.circuits.gates.logical_or`)
is imported from outside this repository; spec section 4.2 step 3 describes it as
writing the OR of the two control cells into the target, i.e. the reversible
map that flips the target exactly when the OR of the controls holds. -/
inductive Gate
  | x (t : Nat)
  | cx (c t : Nat)
  | ccx (c₁ c₂ t : Nat)
  | lor (c₁ c₂ t : Nat)

deriving instance DecidableEq for Gate

/-- A computational basis state over the global qubit index space. -/
def QState : Type := Nat → Bool

/-- Action of one reversible gate on a basis state. -/
def applyGate : Gate → QState → QState
  | Gate.x t, s => fun i => if i = t then ! s t else s i
  | Gate.cx c t, s => fun i => if i = t then Bool.xor (s t) (s c) else s i
  | Gate.ccx c₁ c₂ t, s => fun i => if i = t then Bool.xor (s t) (s c₁ && s c₂) else s i
  | Gate.lor c₁ c₂ t, s => fun i => if i = t then Bool.xor (s t) (s c₁ || s c₂) else s i

/-- Run a gate list (program order) on a basis state. -/
def runGates (gs : List Gate) (s : QState) : QState :=
  gs.foldl (fun st g => applyGate g st) s

/-- Concatenation of the gate lists produced for each index of a loop,
in loop order (`for i in l: emit (f i)`). -/
def appendMap {α : Type} (f : Nat → List α) : List Nat → List α
  | [] => []
  | i :: is => f i ++ appendMap f is

/-- Fuel-driven helper for `pyBinLength`; the fuel is an upper bound on the
argument, so the base case with nonzero remaining value is never reached
in actual use. -/
def bitLenAux : Nat → Nat → Nat
  | 0, _ => 1
  | fuel + 1, m => if m < 2 then 1 else bitLenAux fuel (m / 2) + 1

/-- Number of characters of the binary string Python produces for a
nonnegative integer (so `0` formats to the one-character string `0`). -/
def pyBinLength (m : Nat) : Nat := bitLenAux m m

/-- Shallow embedding of `FixedValueComparator._get_twos_complement`:
compute `2^n - ceil(value)`, format it in binary, left-pad with zeros to at
least `n` characters, and return the characters reversed, i.e. the bit list
ordered least-significant first.  The callers guarantee `0 < value < 2^n`,
so the formatted integer is nonnegative (`Int.toNat` records that
precondition) and the list has exactly `n` entries. -/
def getTwosComplement (numStateQubits : Nat) (value : ℚ) : List Nat :=
  let tc : Nat := ((2 : Int) ^ numStateQubits - Int.ceil value).toNat
  (List.range (max numStateQubits (pyBinLength tc))).map
    (fun i => if tc.testBit i then 1 else 0)

/-- The integer whose bits the comparator's carry chain adds to the state:
`2^n - value`, as a natural number. -/
def tcNat (n : Nat) (value : Int) : Nat := ((2 : Int) ^ n - value).toNat

/-- Carry chain of the binary addition `x + t`: `carry x t i` is the carry
into position `i` (so `carry x t 0 = false` and the final carry out of an
`n`-bit addition is `carry x t n`). -/
def carry (x t : Nat) : Nat → Bool
  | 0 => false
  | i + 1 => if t.testBit i then x.testBit i || carry x t i else x.testBit i && carry x t i

/-- The gates `FixedValueComparator._build` emits for loop position `i`
(both in the compute pass over `range n` and—restricted to `i < n - 1`—in the
uncompute pass).  Global qubit layout: state cell `j` at position `j`,
the compare (result) cell at position `n`, ancilla cell `j` at `n + 1 + j`;
so `qr_ancilla[i-1]` is position `n + i`. -/
def carryGate (n : Nat) (twos : List Nat) (i : Nat) : List Gate :=
  if i = 0 then
    if twos.getD 0 0 = 1 then [Gate.cx 0 (n + 1)] else []
  else if i < n - 1 then
    if twos.getD i 0 = 1 then [Gate.lor i (n + i) (n + 1 + i)]
    else [Gate.ccx i (n + i) (n + 1 + i)]
  else
    if twos.getD i 0 = 1 then [Gate.lor i (n + i) n]
    else [Gate.ccx i (n + i) n]

/-- Shallow embedding of `FixedValueComparator._build`: the gate list the
comparator emits for `num_state_qubits = n`, comparison value `value` and
mode flag `geq`. -/
def comparatorGates (n : Nat) (value : Int) (geq : Bool) : List Gate :=
  if value ≤ 0 then
    if geq then [Gate.x n] else []
  else if value < (2 : Int) ^ n then
    if 1 < n then
      let twos := getTwosComplement n (value : ℚ)
      appendMap (carryGate n twos) (List.range n)
        ++ (if geq then [] else [Gate.x n])
        ++ appendMap (carryGate n twos) (List.range (n - 1)).reverse
    else
      [Gate.cx 0 n] ++ (if geq then [] else [Gate.x n])
  else
    if geq then [] else [Gate.x n]

/-- The basis state `|x>|0>|0...0>`: state cells hold the bits of `x`,
the compare cell and all ancilla cells hold zero. -/
def basisState (n x : Nat) : QState := fun i => if i < n then x.testBit i else false

/-- The basis state `|x>|r>|0...0>`: the input with the compare cell set to `r`. -/
def resultState (n x : Nat) (r : Bool) : QState := fun i =>
  if i < n then x.testBit i else if i = n then r else false

/-- Intermediate state of the comparator: state cells hold `x`, the compare
cell holds `r`, the first `k` ancilla cells hold the carries
`carry (j+1)` for `j < k`, and the remaining ancilla cells are zero. -/
def midState (n x t k : Nat) (r : Bool) : QState := fun i =>
  if i < n then x.testBit i
  else if i = n then r
  else if i < n + 1 + k then carry x t (i - n)
  else false

/-- Numeric value of a bit list ordered least-significant first. -/
def bitsToNat : List Nat → Nat
  | [] => 0
  | b :: bs => b + 2 * bitsToNat bs

/-! ### np helpers

The numeric parameters of the rotation and adder synthesizers are Python
floats; every float is a rational number, so those components are embedded
over `ℚ` (and over `ℝ` where an angle is compared against multiples of π)
with the numpy helper functions modelled exactly. -/

/-- Absolute tolerance of `np.isclose` (default `atol = 1e-8`). -/
def npAtolQ : ℚ := 1 / 100000000

/-- Relative tolerance of `np.isclose` (default `rtol = 1e-5`). -/
def npRtolQ : ℚ := 1 / 100000

/-- `np.isclose(a, b)` with the default tolerances, over `ℚ`. -/
def npIsCloseQ (a b : ℚ) : Prop := |a - b| ≤ npAtolQ + npRtolQ * |b|

instance (a b : ℚ) : Decidable (npIsCloseQ a b) := by
  unfold npIsCloseQ; infer_instance

/-- `np.round` (round half to even), over `ℚ`. -/
def npRoundQ (q : ℚ) : ℚ :=
  let f : Int := ⌊q⌋
  let r : ℚ := q - f
  if r < 1 / 2 then f
  else if 1 / 2 < r then f + 1
  else if f % 2 = 0 then f else f + 1

/-- Python `int(...)` on a number: truncation toward zero. -/
def pyInt (q : ℚ) : Int := if 0 ≤ q then ⌊q⌋ else -⌊-q⌋

/-! ### Piecewise-linear rotation (`piecewise_linear_rotation.py`) -/

/-- The Pauli rotation basis parameter (`'X'`, `'Y'` or `'Z'`). -/
inductive PauliBasis
  | x
  | y
  | z

deriving instance DecidableEq for PauliBasis

/-- The running-sum recursion of `PiecewiseLinearRotation.__init__` for the
mapped slopes: `slopeAcc s i = (sum of mapped slopes below i, mapped slope i)`,
mirroring `sum_mapped_slopes += mapped_slopes[i-1];
mapped_slopes[i] = slopes[i] - sum_mapped_slopes`. -/
def slopeAcc (s : Nat → ℚ) : Nat → ℚ × ℚ
  | 0 => (0, s 0)
  | i + 1 =>
    let p := slopeAcc s i
    let sum := p.1 + p.2
    (sum, s (i + 1) - sum)

/-- The running-sum recursion of `PiecewiseLinearRotation.__init__` for the
mapped offsets, mirroring `sum_mapped_offsets += mapped_offsets[i-1];
mapped_offsets[i] = offsets[i] - slopes[i] * breakpoints[i] - sum_mapped_offsets`. -/
def offsetAcc (bp : Nat → ℚ) (s b : Nat → ℚ) : Nat → ℚ × ℚ
  | 0 => (0, b 0 - s 0 * bp 0)
  | i + 1 =>
    let p := offsetAcc bp s b i
    let sum := p.1 + p.2
    (sum, b (i + 1) - s (i + 1) * bp (i + 1) - sum)

/-- The state of a freshly constructed `PiecewiseLinearRotation` object:
the declarative parameters, the derived mapped slopes/offsets and
zero-breakpoint flag, and the circuit's instruction list `data`. -/
structure PiecewiseLinearRotation where
  num_state_qubits : Nat
  breakpoints : List Int
  slopes : List ℚ
  offsets : List ℚ
  basis : PauliBasis
  mapped_slopes : List ℚ
  mapped_offsets : List ℚ
  contains_zero_breakpoint : Bool
  data : List Gate

/-- Shallow embedding of `PiecewiseLinearRotation.__init__`: store the
parameters, compute the mapped slopes/offsets by the running-sum loop, set
the zero-breakpoint flag with `np.isclose(0, breakpoints[0])`, and create
the host circuit from the three registers alone — the constructor never
calls `_build` and appends no instruction, so `data` is the empty list
produced by `QuantumCircuit.__init__`. -/
def piecewiseLinearRotationInit (num_state_qubits : Nat) (breakpoints : List Int)
    (slopes offsets : List ℚ) (basis : PauliBasis) : PiecewiseLinearRotation :=
  let s : Nat → ℚ := fun i => slopes.getD i 0
  let b : Nat → ℚ := fun i => offsets.getD i 0
  let bp : Nat → ℚ := fun i => ((breakpoints.getD i 0 : Int) : ℚ)
  { num_state_qubits := num_state_qubits
    breakpoints := breakpoints
    slopes := slopes
    offsets := offsets
    basis := basis
    mapped_slopes := (List.range breakpoints.length).map (fun i => (slopeAcc s i).2)
    mapped_offsets := (List.range breakpoints.length).map (fun i => (offsetAcc bp s b i).2)
    contains_zero_breakpoint := decide (npIsCloseQ 0 (bp 0))
    data := [] }

/-- Finite sum `f 0 + f 1 + ... + f (k-1)`. -/
def sumTo (f : Nat → ℚ) : Nat → ℚ
  | 0 => 0
  | k + 1 => sumTo f k + f k

/-- Shallow embedding of `PiecewiseLinearRotation.evaluate`: add the term
`(x >= breakpoints[i]) * (x * mapped_slopes[i] + mapped_offsets[i])` for
every breakpoint index (the Python comparison acts as a 0/1 indicator). -/
def PiecewiseLinearRotation.evaluate (p : PiecewiseLinearRotation) (x : ℚ) : ℚ :=
  sumTo
    (fun i =>
      (if ((p.breakpoints.getD i 0 : Int) : ℚ) ≤ x then 1 else 0) *
        (x * p.mapped_slopes.getD i 0 + p.mapped_offsets.getD i 0))
    p.breakpoints.length

/-- Largest index `j < k` with `breakpoints[j] <= x`, if any. -/
def lastBreakpointIndex (bps : List Int) (x : ℚ) : Nat → Option Nat
  | 0 => none
  | j + 1 => if ((bps.getD j 0 : Int) : ℚ) ≤ x then some j else lastBreakpointIndex bps x j

/-- Direct piecewise evaluation, following the spec's words: the value is `0`
for `x` below the first breakpoint, and `a_j * (x - x_j) + b_j` on the
segment of the last breakpoint `x_j <= x` otherwise.  This is the spec-side
reference that `PiecewiseLinearRotation.evaluate` is compared against. -/
def piecewiseSpecValue (bps : List Int) (slopes offsets : List ℚ) (x : ℚ) : ℚ :=
  match lastBreakpointIndex bps x bps.length with
  | none => 0
  | some j => slopes.getD j 0 * (x - ((bps.getD j 0 : Int) : ℚ)) + offsets.getD j 0

/-! ### Weighted adder (`weighted_adder.py`) -/

/-- Shallow embedding of `WeightedAdder.get_required_sum_qubits`:
`int(np.floor(np.log2(sum(weights))) + 1)`; `Int.log 2` is the exact floor
of the base-2 logarithm of a positive rational. -/
def getRequiredSumQubits (weights : List ℚ) : Int := Int.log 2 weights.sum + 1

/-- The size-relevant state of a constructed `WeightedAdder`. -/
structure WeightedAdder where
  weights : List ℚ
  num_state_qubits : Nat
  num_sum_qubits : Int
  num_carry_qubits : Int

/-- Shallow embedding of the size computations of `WeightedAdder.__init__`. -/
def weightedAdderInit (num_state_qubits : Nat) (weights : List ℚ) : WeightedAdder :=
  let m := getRequiredSumQubits weights
  { weights := weights
    num_state_qubits := num_state_qubits
    num_sum_qubits := m
    num_carry_qubits := m - 1 }

/-- Shallow embedding of the `WeightedAdder.num_ancillas` property. -/
def WeightedAdder.num_ancillas (w : WeightedAdder) : Int :=
  if 2 < w.num_sum_qubits then w.num_carry_qubits + 1 else w.num_carry_qubits

/-- The `WeightedAdder.__init__` warning condition for weight index `i`:
a warning is logged iff `not np.isclose(weight, np.round(weight))`. -/
def weightedAdderWarns (weights : List ℚ) (i : Nat) : Prop :=
  ¬ npIsCloseQ (weights.getD i 0) (npRoundQ (weights.getD i 0))

/-- Gates emitted by `WeightedAdder._build` (global qubit positions:
state cells `0..n-1`, sum cells `n..n+m-1`, ancilla cells from `n+m`,
of which the first `m-1` are the carry cells and position `n+m+(m-1)` is
the `q_control` helper of the multi-controlled NOT). -/
inductive WGate
  | x (t : Nat)
  | cx (c t : Nat)
  | ccx (c₁ c₂ t : Nat)
  | mct (c₁ c₂ c₃ t anc : Nat)

deriving instance DecidableEq for WGate

/-- The bit list `weight_binary` of `WeightedAdder._build`: the binary string
of `int(weight)` left-padded with zeros to at least `num_sum_qubits`
characters and reversed, i.e. least-significant first. -/
def weightBinary (num_sum_qubits : Nat) (weight : ℚ) : List Nat :=
  let w : Nat := (pyInt weight).toNat
  (List.range (max num_sum_qubits (pyBinLength w))).map
    (fun i => if w.testBit i then 1 else 0)

/-- Gates of the compute pass of `WeightedAdder._build` for state qubit `i`,
sum-bit position `j` and weight bit `bit` (`nq` state qubits, `m` sum qubits). -/
def wComputeStep (nq m i j bit : Nat) : List WGate :=
  if bit = 1 then
    if m = 1 then [WGate.cx i (nq + j)]
    else if j = 0 then [WGate.ccx i (nq + j) (nq + m + j), WGate.cx i (nq + j)]
    else if j = m - 1 then [WGate.cx i (nq + j), WGate.ccx i (nq + m + (j - 1)) (nq + j)]
    else
      [WGate.x (nq + j), WGate.x (nq + m + (j - 1)),
       WGate.mct i (nq + j) (nq + m + (j - 1)) (nq + m + j) (nq + m + (m - 1)),
       WGate.cx i (nq + m + j), WGate.x (nq + j), WGate.x (nq + m + (j - 1)),
       WGate.cx i (nq + j), WGate.ccx i (nq + m + (j - 1)) (nq + j)]
  else
    if m = 1 then []
    else if j = 0 then []
    else if j = m - 1 then [WGate.ccx i (nq + m + (j - 1)) (nq + j)]
    else
      [WGate.mct i (nq + j) (nq + m + (j - 1)) (nq + m + j) (nq + m + (m - 1)),
       WGate.ccx i (nq + m + (j - 1)) (nq + j)]

/-- Gates of the carry-uncompute pass of `WeightedAdder._build`. -/
def wUncomputeStep (nq m i j bit : Nat) : List WGate :=
  if bit = 1 then
    if m = 1 then []
    else if j = 0 then [WGate.x (nq + j), WGate.ccx i (nq + j) (nq + m + j), WGate.x (nq + j)]
    else if j = m - 1 then []
    else
      [WGate.x (nq + m + (j - 1)),
       WGate.mct i (nq + j) (nq + m + (j - 1)) (nq + m + j) (nq + m + (m - 1)),
       WGate.cx i (nq + m + j), WGate.x (nq + m + (j - 1))]
  else
    if m = 1 then []
    else if j = 0 then []
    else if j = m - 1 then []
    else
      [WGate.x (nq + j),
       WGate.mct i (nq + j) (nq + m + (j - 1)) (nq + m + j) (nq + m + (m - 1)),
       WGate.x (nq + j)]

/-- Concatenation over a list of loop indices, reused for `WGate` lists. -/
def appendMapW (f : Nat → List WGate) : List Nat → List WGate
  | [] => []
  | i :: is => f i ++ appendMapW f is

/-- Gates `WeightedAdder._build` emits for one `(state qubit, weight)` pair:
nothing for a zero weight, otherwise the compute pass over the weight's bit
list in order followed by the uncompute pass in reversed order. -/
def wWeightGates (nq m i : Nat) (weight : ℚ) : List WGate :=
  if weight = 0 then []
  else
    let wb := weightBinary m weight
    appendMapW (fun j => wComputeStep nq m i j (wb.getD j 0)) (List.range wb.length)
      ++ appendMapW (fun j => wUncomputeStep nq m i j (wb.getD j 0)) (List.range wb.length).reverse

/-- Shallow embedding of the full gate list of `WeightedAdder._build`. -/
def weightedAdderGates (nq : Nat) (weights : List ℚ) : List WGate :=
  let m := (getRequiredSumQubits weights).toNat
  appendMapW (fun i => wWeightGates nq m i (weights.getD i 0)) (List.range weights.length)

/-! ### Two's-complement subtractor (`subtractors/twos_complement_subtractor.py`) -/

/-- The queryable dimensions an injected adder exposes to the subtractor. -/
structure Adder where
  num_qubits : Nat
  num_ancillas : Nat

deriving instance DecidableEq for Adder

/-- Modelled from the spec: `DraperQFTAdder` lives outside this repository's
sources; per spec section 4.5 the default is "a fixed-width modular adder
sized `2(n+1)`", i.e. the `kind="fixed"` Draper QFT adder on
`num_state_qubits`-cell registers acts on `2 * num_state_qubits` qubits and
needs no ancilla. -/
def draperQFTAdder (num_state_qubits : Nat) : Adder :=
  { num_qubits := 2 * num_state_qubits, num_ancillas := 0 }

/-- The error message of `_check_adder_is_compatible` (the f-string of the
source, with the two widths interpolated). -/
def checkAdderMessage (target actual : Int) : String :=
  "The number of state qubits (= all non-ancilla qubits) of the input adder (" ++
    toString actual ++ ") does not match the expected number (" ++ toString target ++
    "). Make sure to pass a modular adder."

/-- Shallow embedding of `_check_adder_is_compatible`: raising `ValueError`
becomes returning `Except.error` with the message. -/
def checkAdderIsCompatible (num_state_qubits : Nat) (adder : Adder) : Except String Unit :=
  let target : Int := 2 * (num_state_qubits + 1)
  let actual : Int := (adder.num_qubits : Int) - (adder.num_ancillas : Int)
  if target ≠ actual then Except.error (checkAdderMessage target actual) else Except.ok ()

/-- Shallow embedding of the adder-selection logic of `Subtractor.__init__`:
with no adder supplied, use `DraperQFTAdder(num_state_qubits + 1, kind="fixed")`;
otherwise validate the supplied adder and use it. -/
def subtractorAdder (num_state_qubits : Nat) : Option Adder → Except String Adder
  | none => Except.ok (draperQFTAdder (num_state_qubits + 1))
  | some adder =>
    match checkAdderIsCompatible num_state_qubits adder with
    | Except.error e => Except.error e
    | Except.ok _ => Except.ok adder

/-! ### Linear rotation (`linear_rotation.py`, identical logic in
`linear_pauli_rotations.py`)

The rotation angles are arbitrary reals, so this component is embedded over
`ℝ` with the floating-point `np.isclose` test modelled exactly at the numpy
default tolerances; the gate-emission decisions compare real numbers, hence
the classical (noncomputable) conditionals. -/

/-- Absolute tolerance of `np.isclose` over `ℝ`. -/
noncomputable def npAtolR : ℝ := 1 / 100000000

/-- Relative tolerance of `np.isclose` over `ℝ`. -/
noncomputable def npRtolR : ℝ := 1 / 100000

/-- `np.isclose(a, b)` with the default tolerances, over `ℝ`. -/
def npIsCloseR (a b : ℝ) : Prop := |a - b| ≤ npAtolR + npRtolR * |b|

/-- Rotation instructions emitted by `LinearRotation._build`: an uncontrolled
Pauli rotation on the target cell, or a rotation controlled by state cell
`control`. -/
inductive LinGate
  | rot (basis : PauliBasis) (theta : ℝ)
  | crot (basis : PauliBasis) (theta : ℝ) (control : Nat)

/-- The skip test of `LinearRotation._build`:
`np.isclose(theta / 4 / np.pi % 1, 0)` (Python `% 1` on a float is `Int.fract`). -/
def rotationSkipped (theta : ℝ) : Prop :=
  npIsCloseR (Int.fract (theta / 4 / Real.pi)) 0

open scoped Classical in
/-- Shallow embedding of `LinearRotation._build`: an offset rotation on the
target unless its skip test holds, then for each state cell `i` a controlled
rotation of angle `slope * 2^i` unless its skip test holds. -/
noncomputable def linearRotationGates (n : Nat) (slope offset : ℝ) (basis : PauliBasis) :
    List LinGate :=
  (if rotationSkipped offset then [] else [LinGate.rot basis offset])
    ++ List.flatten
      ((List.range n).map (fun i =>
        if rotationSkipped (slope * 2 ^ i) then [] else [LinGate.crot basis (slope * 2 ^ i) i]))

/-! ## Infrastructure lemmas -/

theorem runGates_nil (s : QState) : runGates [] s = s := rfl

theorem runGates_append (l₁ l₂ : List Gate) (s : QState) :
    runGates (l₁ ++ l₂) s = runGates l₂ (runGates l₁ s) := by
  unfold runGates
  rw [List.foldl_append]

theorem runGates_singleton (g : Gate) (s : QState) :
    runGates [g] s = applyGate g s := rfl

theorem appendMap_append {α : Type} (f : Nat → List α) (l₁ l₂ : List Nat) :
    appendMap f (l₁ ++ l₂) = appendMap f l₁ ++ appendMap f l₂ := by
  induction l₁ with
  | nil => rfl
  | cons i is ih => simp [appendMap, ih]

theorem getD_range_map {α : Type} (f : Nat → α) (n i : Nat) (d : α) (h : i < n) :
    ((List.range n).map f).getD i d = f i := by
  have hlen : i < ((List.range n).map f).length := by simpa using h
  rw [List.getD_eq_getElem _ _ hlen]
  simp

theorem midState_lt {n x t k : Nat} {r : Bool} {i : Nat} (h : i < n) :
    midState n x t k r i = x.testBit i := by
  simp [midState, h]

theorem midState_at_n {n x t k : Nat} {r : Bool} :
    midState n x t k r n = r := by
  simp [midState]

theorem midState_anc {n x t k : Nat} {r : Bool} {i : Nat} (h1 : n < i) (h2 : i < n + 1 + k) :
    midState n x t k r i = carry x t (i - n) := by
  have h3 : ¬ i < n := by omega
  have h4 : ¬ i = n := by omega
  simp [midState, h3, h4, h2]

theorem midState_top {n x t k : Nat} {r : Bool} {i : Nat} (h1 : n < i) (h2 : n + 1 + k ≤ i) :
    midState n x t k r i = false := by
  have h3 : ¬ i < n := by omega
  have h4 : ¬ i = n := by omega
  have h5 : ¬ i < n + 1 + k := by omega
  simp [midState, h3, h4, h5]

theorem midState_succ {n x t k : Nat} {r : Bool} {i : Nat} (h : ¬ i = n + 1 + k) :
    midState n x t (k + 1) r i = midState n x t k r i := by
  unfold midState
  split_ifs <;> first | rfl | (exfalso; omega)

theorem midState_flag {n x t k : Nat} (r r' : Bool) {i : Nat} (h : ¬ i = n) :
    midState n x t k r i = midState n x t k r' i := by
  unfold midState
  split_ifs <;> first | rfl | (exfalso; omega)

theorem basisState_eq_midState (n x t : Nat) : basisState n x = midState n x t 0 false := by
  funext i
  unfold basisState midState
  split_ifs <;> first | rfl | (exfalso; omega)

theorem midState_eq_resultState (n x t : Nat) (r : Bool) :
    midState n x t 0 r = resultState n x r := by
  funext i
  unfold midState resultState
  split_ifs <;> first | rfl | (exfalso; omega)

theorem basis_eq_result_false (n x : Nat) : basisState n x = resultState n x false := by
  funext i
  unfold basisState resultState
  split_ifs <;> rfl

theorem applyGate_x_resultState (n x : Nat) (r : Bool) :
    applyGate (Gate.x n) (resultState n x r) = resultState n x (! r) := by
  funext i
  by_cases hi : i = n
  · have hr : resultState n x r n = r := by simp [resultState]
    have hr' : resultState n x (! r) n = ! r := by simp [resultState]
    simp [applyGate, hi, hr, hr']
  · have : resultState n x r i = resultState n x (! r) i := by
      unfold resultState
      split_ifs <;> first | rfl | (exfalso; omega)
    simpa [applyGate, hi] using this

theorem applyGate_x_midState (n x t k : Nat) (r : Bool) :
    applyGate (Gate.x n) (midState n x t k r) = midState n x t k (! r) := by
  funext i
  by_cases hi : i = n
  · subst hi
    simp [applyGate, midState_at_n]
  · simpa [applyGate, hi] using midState_flag r (! r) hi

/-! ## The comparator carry chain -/

theorem carry_iff (x t : Nat) : ∀ i, (carry x t i = true ↔ 2 ^ i ≤ x % 2 ^ i + t % 2 ^ i) := by
  intro i
  induction i with
  | zero => simp [carry, Nat.mod_one]
  | succ i ih =>
    have hp : 0 < 2 ^ i := Nat.pos_pow_of_pos i (by omega)
    have hpow : 2 ^ (i + 1) = 2 ^ i * 2 := pow_succ 2 i
    have hxa : x % 2 ^ i < 2 ^ i := Nat.mod_lt _ hp
    have hta : t % 2 ^ i < 2 ^ i := Nat.mod_lt _ hp
    have hxb : x.testBit i = decide (x / 2 ^ i % 2 = 1) := Nat.testBit_to_div_mod
    have htb : t.testBit i = decide (t / 2 ^ i % 2 = 1) := Nat.testBit_to_div_mod
    have hx2 : x / 2 ^ i % 2 = 0 ∨ x / 2 ^ i % 2 = 1 := by omega
    have ht2 : t / 2 ^ i % 2 = 0 ∨ t / 2 ^ i % 2 = 1 := by omega
    rcases hx2 with hx0 | hx1 <;> rcases ht2 with ht0 | ht1
    · have hxm : x % 2 ^ (i + 1) = x % 2 ^ i := by rw [hpow, Nat.mod_mul, hx0]; simp
      have htm : t % 2 ^ (i + 1) = t % 2 ^ i := by rw [hpow, Nat.mod_mul, ht0]; simp
      have hxi : x.testBit i = false := by simp [hxb, hx0]
      have hti : t.testBit i = false := by simp [htb, ht0]
      rw [hxm, htm]
      simp only [carry, hxi, hti, Bool.false_and, if_neg (Bool.false_ne_true)]
      simp only [Bool.false_eq_true, false_iff]
      omega
    · have hxm : x % 2 ^ (i + 1) = x % 2 ^ i := by rw [hpow, Nat.mod_mul, hx0]; simp
      have htm : t % 2 ^ (i + 1) = t % 2 ^ i + 2 ^ i := by rw [hpow, Nat.mod_mul, ht1]; simp
      have hxi : x.testBit i = false := by simp [hxb, hx0]
      have hti : t.testBit i = true := by simp [htb, ht1]
      rw [hxm, htm]
      simp only [carry, hxi, hti, Bool.false_or, if_true]
      rw [ih]
      omega
    · have hxm : x % 2 ^ (i + 1) = x % 2 ^ i + 2 ^ i := by rw [hpow, Nat.mod_mul, hx1]; simp
      have htm : t % 2 ^ (i + 1) = t % 2 ^ i := by rw [hpow, Nat.mod_mul, ht0]; simp
      have hxi : x.testBit i = true := by simp [hxb, hx1]
      have hti : t.testBit i = false := by simp [htb, ht0]
      rw [hxm, htm]
      simp only [carry, hxi, hti, Bool.true_and, if_neg (Bool.false_ne_true)]
      rw [ih]
      omega
    · have hxm : x % 2 ^ (i + 1) = x % 2 ^ i + 2 ^ i := by rw [hpow, Nat.mod_mul, hx1]; simp
      have htm : t % 2 ^ (i + 1) = t % 2 ^ i + 2 ^ i := by rw [hpow, Nat.mod_mul, ht1]; simp
      have hxi : x.testBit i = true := by simp [hxb, hx1]
      have hti : t.testBit i = true := by simp [htb, ht1]
      rw [hxm, htm]
      simp only [carry, hxi, hti, Bool.true_or, if_true]
      simp only [true_iff]
      omega

theorem tcNat_lt (n : Nat) (value : Int) (hv0 : 0 < value) : tcNat n value < 2 ^ n := by
  have h2 : ((2 : Int)) ^ n = ((2 ^ n : Nat) : Int) := by push_cast; ring
  have hpos : 0 < 2 ^ n := Nat.pos_pow_of_pos n (by omega)
  unfold tcNat
  omega

theorem carry_final (n x : Nat) (value : Int) (hx : x < 2 ^ n)
    (hv0 : 0 < value) (hv1 : value < (2 : Int) ^ n) :
    carry x (tcNat n value) n = decide (value ≤ (x : Int)) := by
  have h := carry_iff x (tcNat n value) n
  have ht : tcNat n value < 2 ^ n := tcNat_lt n value hv0
  have h2 : ((2 : Int)) ^ n = ((2 ^ n : Nat) : Int) := by push_cast; ring
  have htn : (tcNat n value : Int) = ((2 ^ n : Nat) : Int) - value := by
    unfold tcNat
    rw [h2] at hv1 ⊢
    omega
  rw [Nat.mod_eq_of_lt hx, Nat.mod_eq_of_lt ht] at h
  cases hc : carry x (tcNat n value) n with
  | false =>
    have hnc : ¬ (2 ^ n ≤ x + tcNat n value) := fun hp => by
      have hcon := h.mpr hp
      rw [hc] at hcon
      exact Bool.noConfusion hcon
    have hlt : ¬ (value ≤ (x : Int)) := by omega
    simp [hlt]
  | true =>
    have hp : 2 ^ n ≤ x + tcNat n value := h.mp hc
    have hle : value ≤ (x : Int) := by omega
    simp [hle]

theorem getTwosComplement_getD (n : Nat) (value : Int) (i : Nat) (hi : i < n) :
    ((getTwosComplement n (value : ℚ)).getD i 0 = 1 ↔ (tcNat n value).testBit i = true) := by
  simp only [getTwosComplement, Int.ceil_intCast]
  rw [getD_range_map _ _ _ _ (lt_of_lt_of_le hi (le_max_left _ _))]
  by_cases hb : (tcNat n value).testBit i <;> simp [tcNat] at hb ⊢ <;> simp [hb]

/-! ## Comparator gate-level step lemmas -/

theorem applyGate_cx_at (c tgt : Nat) (s : QState) :
    applyGate (Gate.cx c tgt) s tgt = Bool.xor (s tgt) (s c) := by
  simp [applyGate]

theorem applyGate_cx_ne (c tgt : Nat) (s : QState) {i : Nat} (h : ¬ i = tgt) :
    applyGate (Gate.cx c tgt) s i = s i := by
  simp [applyGate, h]

theorem applyGate_lor_at (c₁ c₂ tgt : Nat) (s : QState) :
    applyGate (Gate.lor c₁ c₂ tgt) s tgt = Bool.xor (s tgt) (s c₁ || s c₂) := by
  simp [applyGate]

theorem applyGate_lor_ne (c₁ c₂ tgt : Nat) (s : QState) {i : Nat} (h : ¬ i = tgt) :
    applyGate (Gate.lor c₁ c₂ tgt) s i = s i := by
  simp [applyGate, h]

theorem applyGate_ccx_at (c₁ c₂ tgt : Nat) (s : QState) :
    applyGate (Gate.ccx c₁ c₂ tgt) s tgt = Bool.xor (s tgt) (s c₁ && s c₂) := by
  simp [applyGate]

theorem applyGate_ccx_ne (c₁ c₂ tgt : Nat) (s : QState) {i : Nat} (h : ¬ i = tgt) :
    applyGate (Gate.ccx c₁ c₂ tgt) s i = s i := by
  simp [applyGate, h]

theorem carry_one (x t : Nat) :
    carry x t 1 = (if t.testBit 0 then x.testBit 0 else false) := by
  by_cases hb : t.testBit 0 <;> simp [carry, hb]

theorem carry_step (x t k : Nat) :
    carry x t (k + 2) =
      (if t.testBit (k + 1) then x.testBit (k + 1) || carry x t (k + 1)
       else x.testBit (k + 1) && carry x t (k + 1)) := by
  by_cases hb : t.testBit (k + 1) <;> simp [carry, hb]

theorem step_compute {n x t : Nat} {twos : List Nat}
    (htw : ∀ i, i < n → (twos.getD i 0 = 1 ↔ t.testBit i = true))
    (r : Bool) (k : Nat) (hk : k < n - 1) :
    runGates (carryGate n twos k) (midState n x t k r) = midState n x t (k + 1) r := by
  rcases k with _ | k
  · -- first loop position: `cx state[0] ancilla[0]` when the bit is set
    have hr : midState n x t 1 r (n + 1) = carry x t 1 := by
      rw [midState_anc (by omega) (by omega)]
      congr 1
      omega
    by_cases hb : t.testBit 0
    · rw [carryGate, if_pos rfl, if_pos ((htw 0 (by omega)).mpr hb), runGates_singleton]
      funext i
      by_cases hi : i = n + 1
      · subst hi
        rw [applyGate_cx_at, midState_top (by omega) (by omega), midState_lt (by omega), hr,
            carry_one, if_pos hb]
        exact Bool.false_xor _
      · rw [applyGate_cx_ne _ _ _ hi]
        exact (midState_succ hi).symm
    · have hb' : ¬ (twos.getD 0 0 = 1) := by
        rw [htw 0 (by omega)]
        simp [hb]
      rw [carryGate, if_pos rfl, if_neg hb', runGates_nil]
      funext i
      by_cases hi : i = n + 1
      · subst hi
        rw [midState_top (by omega) (by omega), hr, carry_one, if_neg hb]
      · exact (midState_succ hi).symm
  · -- interior position `k+1`: OR / Toffoli into ancilla `k+1`
    have h0 : ¬ (k + 1 = 0) := by omega
    have hsc : midState n x t (k + 1) r (k + 1) = x.testBit (k + 1) := midState_lt (by omega)
    have hsa : midState n x t (k + 1) r (n + (k + 1)) = carry x t (k + 1) := by
      rw [midState_anc (by omega) (by omega)]
      congr 1
      omega
    have hst : midState n x t (k + 1) r (n + 1 + (k + 1)) = false :=
      midState_top (by omega) (by omega)
    have hr : midState n x t (k + 1 + 1) r (n + 1 + (k + 1)) = carry x t (k + 2) := by
      rw [midState_anc (by omega) (by omega)]
      congr 1
      omega
    by_cases hb : t.testBit (k + 1)
    · rw [carryGate, if_neg h0, if_pos hk, if_pos ((htw (k + 1) (by omega)).mpr hb),
          runGates_singleton]
      funext i
      by_cases hi : i = n + 1 + (k + 1)
      · subst hi
        rw [applyGate_lor_at, hsc, hsa, hst, hr, carry_step, if_pos hb]
        exact Bool.false_xor _
      · rw [applyGate_lor_ne _ _ _ _ hi]
        exact (midState_succ hi).symm
    · have hb' : ¬ (twos.getD (k + 1) 0 = 1) := by
        rw [htw (k + 1) (by omega)]
        simp [hb]
      rw [carryGate, if_neg h0, if_pos hk, if_neg hb', runGates_singleton]
      funext i
      by_cases hi : i = n + 1 + (k + 1)
      · subst hi
        rw [applyGate_ccx_at, hsc, hsa, hst, hr, carry_step, if_neg hb]
        exact Bool.false_xor _
      · rw [applyGate_ccx_ne _ _ _ _ hi]
        exact (midState_succ hi).symm

theorem step_uncompute {n x t : Nat} {twos : List Nat}
    (htw : ∀ i, i < n → (twos.getD i 0 = 1 ↔ t.testBit i = true))
    (r : Bool) (k : Nat) (hk : k < n - 1) :
    runGates (carryGate n twos k) (midState n x t (k + 1) r) = midState n x t k r := by
  rcases k with _ | k
  · have hs1 : midState n x t 1 r (n + 1) = carry x t 1 := by
      rw [midState_anc (by omega) (by omega)]
      congr 1
      omega
    by_cases hb : t.testBit 0
    · rw [carryGate, if_pos rfl, if_pos ((htw 0 (by omega)).mpr hb), runGates_singleton]
      funext i
      by_cases hi : i = n + 1
      · subst hi
        rw [applyGate_cx_at, hs1, midState_lt (by omega),
            midState_top (by omega) (by omega), carry_one, if_pos hb]
        exact Bool.xor_self _
      · rw [applyGate_cx_ne _ _ _ hi]
        exact midState_succ hi
    · have hb' : ¬ (twos.getD 0 0 = 1) := by
        rw [htw 0 (by omega)]
        simp [hb]
      rw [carryGate, if_pos rfl, if_neg hb', runGates_nil]
      funext i
      by_cases hi : i = n + 1
      · subst hi
        rw [hs1, midState_top (by omega) (by omega), carry_one, if_neg hb]
      · exact midState_succ hi
  · have h0 : ¬ (k + 1 = 0) := by omega
    have hsc : midState n x t (k + 1 + 1) r (k + 1) = x.testBit (k + 1) := midState_lt (by omega)
    have hsa : midState n x t (k + 1 + 1) r (n + (k + 1)) = carry x t (k + 1) := by
      rw [midState_anc (by omega) (by omega)]
      congr 1
      omega
    have hst : midState n x t (k + 1 + 1) r (n + 1 + (k + 1)) = carry x t (k + 2) := by
      rw [midState_anc (by omega) (by omega)]
      congr 1
      omega
    have hr : midState n x t (k + 1) r (n + 1 + (k + 1)) = false :=
      midState_top (by omega) (by omega)
    by_cases hb : t.testBit (k + 1)
    · rw [carryGate, if_neg h0, if_pos hk, if_pos ((htw (k + 1) (by omega)).mpr hb),
          runGates_singleton]
      funext i
      by_cases hi : i = n + 1 + (k + 1)
      · subst hi
        rw [applyGate_lor_at, hsc, hsa, hst, hr, carry_step, if_pos hb]
        exact Bool.xor_self _
      · rw [applyGate_lor_ne _ _ _ _ hi]
        exact midState_succ hi
    · have hb' : ¬ (twos.getD (k + 1) 0 = 1) := by
        rw [htw (k + 1) (by omega)]
        simp [hb]
      rw [carryGate, if_neg h0, if_pos hk, if_neg hb', runGates_singleton]
      funext i
      by_cases hi : i = n + 1 + (k + 1)
      · subst hi
        rw [applyGate_ccx_at, hsc, hsa, hst, hr, carry_step, if_neg hb]
        exact Bool.xor_self _
      · rw [applyGate_ccx_ne _ _ _ _ hi]
        exact midState_succ hi

theorem step_final {n x t : Nat} {twos : List Nat}
    (htw : ∀ i, i < n → (twos.getD i 0 = 1 ↔ t.testBit i = true))
    (hn : 2 ≤ n) :
    runGates (carryGate n twos (n - 1)) (midState n x t (n - 1) false) =
      midState n x t (n - 1) (carry x t n) := by
  have h0 : ¬ (n - 1 = 0) := by omega
  have h1 : ¬ (n - 1 < n - 1) := by omega
  have hcar : carry x t n =
      (if t.testBit (n - 1) then x.testBit (n - 1) || carry x t (n - 1)
       else x.testBit (n - 1) && carry x t (n - 1)) := by
    have hsucc : n = (n - 1) + 1 := by omega
    rw [hsucc]
    have hred : n - 1 + 1 - 1 = n - 1 := by omega
    by_cases hb : t.testBit (n - 1) <;> simp [carry, hred, hb]
  have hsc : midState n x t (n - 1) false (n - 1) = x.testBit (n - 1) :=
    midState_lt (by omega)
  have hsa : midState n x t (n - 1) false (n + (n - 1)) = carry x t (n - 1) := by
    rw [midState_anc (by omega) (by omega)]
    congr 1
    omega
  have hsn : midState n x t (n - 1) false n = false := midState_at_n
  have hrn : midState n x t (n - 1) (carry x t n) n = carry x t n := midState_at_n
  by_cases hb : t.testBit (n - 1)
  · rw [carryGate, if_neg h0, if_neg h1, if_pos ((htw (n - 1) (by omega)).mpr hb),
        runGates_singleton]
    funext i
    by_cases hi : i = n
    · subst hi
      rw [applyGate_lor_at, hsc, hsa, hsn, hrn, hcar, if_pos hb]
      exact Bool.false_xor _
    · rw [applyGate_lor_ne _ _ _ _ hi]
      exact (midState_flag _ _ hi).symm
  · have hb' : ¬ (twos.getD (n - 1) 0 = 1) := by
      rw [htw (n - 1) (by omega)]
      simp [hb]
    rw [carryGate, if_neg h0, if_neg h1, if_neg hb', runGates_singleton]
    funext i
    by_cases hi : i = n
    · subst hi
      rw [applyGate_ccx_at, hsc, hsa, hsn, hrn, hcar, if_neg hb]
      exact Bool.false_xor _
    · rw [applyGate_ccx_ne _ _ _ _ hi]
      exact (midState_flag _ _ hi).symm

/-! ## Comparator loop invariants and full-run correctness -/

theorem compute_prefix {n x t : Nat} {twos : List Nat}
    (htw : ∀ i, i < n → (twos.getD i 0 = 1 ↔ t.testBit i = true)) (r : Bool) :
    ∀ k, k ≤ n - 1 →
      runGates (appendMap (carryGate n twos) (List.range k)) (midState n x t 0 r) =
        midState n x t k r := by
  intro k
  induction k with
  | zero =>
    intro _
    rw [List.range_zero]
    rfl
  | succ k ih =>
    intro hk
    rw [List.range_succ, appendMap_append, runGates_append, ih (by omega)]
    have hsingle : appendMap (carryGate n twos) [k] = carryGate n twos k := by
      simp [appendMap]
    rw [hsingle, step_compute htw r k (by omega)]

theorem uncompute_prefix {n x t : Nat} {twos : List Nat}
    (htw : ∀ i, i < n → (twos.getD i 0 = 1 ↔ t.testBit i = true)) (r : Bool) :
    ∀ k, k ≤ n - 1 →
      runGates (appendMap (carryGate n twos) (List.range k).reverse) (midState n x t k r) =
        midState n x t 0 r := by
  intro k
  induction k with
  | zero =>
    intro _
    rw [List.range_zero]
    rfl
  | succ k ih =>
    intro hk
    rw [List.range_succ, List.reverse_append, List.reverse_singleton, List.singleton_append]
    have hcons : appendMap (carryGate n twos) (k :: (List.range k).reverse) =
        carryGate n twos k ++ appendMap (carryGate n twos) (List.range k).reverse := rfl
    rw [hcons, runGates_append, step_uncompute htw r k (by omega), ih (by omega)]

theorem comparatorGates_main (n : Nat) (value : Int) (geq : Bool)
    (h0 : 0 < value) (h1 : value < (2 : Int) ^ n) (hn : 1 < n) :
    comparatorGates n value geq =
      appendMap (carryGate n (getTwosComplement n (value : ℚ))) (List.range n)
        ++ (if geq then [] else [Gate.x n])
        ++ appendMap (carryGate n (getTwosComplement n (value : ℚ)))
            (List.range (n - 1)).reverse := by
  have h0' : ¬ (value ≤ 0) := by omega
  simp only [comparatorGates, if_neg h0', if_pos h1, if_pos hn]

theorem beq_of_flip (b c : Bool) : (if c then b else ! b) = (b == c) := by
  cases b <;> cases c <;> rfl

/-- Full-run correctness of the comparator on a computational basis state:
for any width `n ≥ 1`, any comparison value and either mode, the circuit maps
`|x>|0>|0..0>` to `|x>|r>|0..0>` where `r` is set exactly when
`(x >= value)` agrees with the `geq` mode flag. -/
theorem comparator_run (n : Nat) (hn : 1 ≤ n) (value : Int) (geq : Bool) (x : Nat)
    (hx : x < 2 ^ n) :
    runGates (comparatorGates n value geq) (basisState n x) =
      resultState n x (decide (value ≤ (x : Int)) == geq) := by
  by_cases hv0 : value ≤ 0
  · -- the condition holds for every x: flip the result cell iff geq
    have hd : decide (value ≤ (x : Int)) = true := by
      simp only [decide_eq_true_eq]
      omega
    rw [hd]
    unfold comparatorGates
    rw [if_pos hv0]
    cases geq with
    | false =>
      rw [if_neg Bool.false_ne_true, runGates_nil]
      exact basis_eq_result_false n x
    | true =>
      rw [if_pos rfl, runGates_singleton, basis_eq_result_false n x]
      exact applyGate_x_resultState n x false
  · by_cases hv1 : value < (2 : Int) ^ n
    · -- nontrivial threshold
      have hv0' : 0 < value := by omega
      by_cases hn2 : 1 < n
      · -- main carry-chain branch
        have htw : ∀ i, i < n →
            ((getTwosComplement n (value : ℚ)).getD i 0 = 1 ↔
              (tcNat n value).testBit i = true) :=
          fun i hi => getTwosComplement_getD n value i hi
        rw [comparatorGates_main n value geq hv0' hv1 hn2, runGates_append, runGates_append]
        have hsplit : List.range n = List.range (n - 1) ++ [n - 1] := by
          have hsucc : n = (n - 1) + 1 := by omega
          rw [hsucc, List.range_succ]
          congr 1 <;> omega
        rw [hsplit, appendMap_append, runGates_append,
            basisState_eq_midState n x (tcNat n value),
            compute_prefix htw false (n - 1) (by omega)]
        have hsingle : appendMap (carryGate n (getTwosComplement n (value : ℚ))) [n - 1] =
            carryGate n (getTwosComplement n (value : ℚ)) (n - 1) := by
          simp [appendMap]
        rw [hsingle, step_final htw (by omega)]
        -- the optional mode flip
        have hflip : runGates (if geq then [] else [Gate.x n])
            (midState n x (tcNat n value) (n - 1) (carry x (tcNat n value) n)) =
            midState n x (tcNat n value) (n - 1)
              (carry x (tcNat n value) n == geq) := by
          cases geq with
          | false =>
            rw [if_neg Bool.false_ne_true, runGates_singleton, applyGate_x_midState]
            congr 1
            cases carry x (tcNat n value) n <;> rfl
          | true =>
            rw [if_pos rfl, runGates_nil]
            congr 1
            cases carry x (tcNat n value) n <;> rfl
        rw [hflip, uncompute_prefix htw _ (n - 1) (by omega),
            midState_eq_resultState, carry_final n x value hx hv0' hv1]
      · -- the single-qubit collapse: value is forced to 1
        have hn1 : n = 1 := by omega
        subst hn1
        have hv : value = 1 := by
          have : (2 : Int) ^ 1 = 2 := by norm_num
          omega
        subst hv
        unfold comparatorGates
        rw [if_neg hv0, if_pos hv1, if_neg (by omega : ¬ (1 : Nat) < 1)]
        have hcx : applyGate (Gate.cx 0 1) (basisState 1 x) = resultState 1 x (x.testBit 0) := by
          funext i
          by_cases hi : i = 1
          · subst hi
            rw [applyGate_cx_at]
            have h1 : basisState 1 x 1 = false := by simp [basisState]
            have h0 : basisState 1 x 0 = x.testBit 0 := by simp [basisState]
            have hr : resultState 1 x (x.testBit 0) 1 = x.testBit 0 := by simp [resultState]
            rw [h1, h0, hr]
            exact Bool.false_xor _
          · rw [applyGate_cx_ne _ _ _ hi]
            unfold basisState resultState
            split_ifs <;> first | rfl | (exfalso; omega)
        have hbit : x.testBit 0 = decide ((1 : Int) ≤ (x : Int)) := by
          interval_cases x <;> simp
        cases geq with
        | true =>
          rw [if_pos rfl, runGates_append, runGates_singleton, runGates_nil, hcx, hbit]
          congr 1
          cases decide ((1 : Int) ≤ (x : Int)) <;> rfl
        | false =>
          rw [if_neg Bool.false_ne_true, runGates_append, runGates_singleton,
              runGates_singleton, hcx, applyGate_x_resultState, hbit]
          congr 1
          cases hd : decide ((1 : Int) ≤ (x : Int)) <;> rfl
    · -- the condition fails for every x < 2^n
      have hd : decide (value ≤ (x : Int)) = false := by
        have h2 : ((2 : Int)) ^ n = ((2 ^ n : Nat) : Int) := by push_cast; ring
        simp only [decide_eq_false_iff_not]
        omega
      rw [hd]
      unfold comparatorGates
      rw [if_neg hv0, if_neg hv1]
      cases geq with
      | true =>
        rw [if_pos rfl, runGates_nil]
        exact basis_eq_result_false n x
      | false =>
        rw [if_neg Bool.false_ne_true, runGates_singleton, basis_eq_result_false n x]
        exact applyGate_x_resultState n x false

/-! ## Claims C1 - C4 -/

/-- Claim C1: for every `n` in `[1,5]`, every integer value in `[-1, 2^n]`,
both modes, and every basis input `x` in `[0, 2^n)`: running the comparator
circuit on `|x>|0>|0..0>` yields exactly the basis state `|x>|r>|0..0>`, with
the result cell `r` set iff `(x >= value)` holds exactly when the mode is
`>=` — and since the run is a deterministic permutation of basis states, no
other basis outcome is possible. -/
theorem comparator_correct_bounded (n : Nat) (value : Int) (geq : Bool) (x : Nat)
    (hn1 : 1 ≤ n) (hn5 : n ≤ 5) (hv1 : -1 ≤ value) (hv2 : value ≤ (2 : Int) ^ n)
    (hx : x < 2 ^ n) :
    runGates (comparatorGates n value geq) (basisState n x) =
      resultState n x (decide (value ≤ (x : Int)) == geq) :=
  comparator_run n hn1 value geq x hx

theorem comparator_correct_bounded_witness :
    runGates (comparatorGates 3 5 true) (basisState 3 6) =
      resultState 3 6 (decide ((5 : Int) ≤ ((6 : Nat) : Int)) == true) :=
  comparator_correct_bounded 3 5 true 6 (by norm_num) (by norm_num) (by norm_num)
    (by norm_num) (by norm_num)

/-- Claim C2: for every width `n >= 1`, every comparison value and both modes,
running the full comparator circuit (compute, optional mode flip, uncompute)
on a basis state `|x>|0>|0..0>` leaves every cell other than the result cell
(position `n`) with its initial value: the state register still holds `x` and
every ancilla cell is restored to `0`. -/
theorem comparator_frame (n : Nat) (value : Int) (geq : Bool) (x : Nat)
    (hn : 1 ≤ n) (hx : x < 2 ^ n) (i : Nat) (hi : ¬ i = n) :
    runGates (comparatorGates n value geq) (basisState n x) i = basisState n x i := by
  rw [comparator_run n hn value geq x hx]
  unfold resultState basisState
  split_ifs <;> first | rfl | (exfalso; omega)

theorem comparator_frame_witness :
    runGates (comparatorGates 2 3 false) (basisState 2 1) 3 = basisState 2 1 3 :=
  comparator_frame 2 3 false 1 (by norm_num) (by norm_num) 3 (by norm_num)

/-- Claim C3: trivial thresholds are special-cased: for `value <= 0` the
comparator emits exactly one X gate on the result cell in the `>=` mode and
no gate at all in the `<` mode; for `value >= 2^n` it emits exactly one X
gate on the result cell in the `<` mode and no gate in the `>=` mode — in
particular no gate touches the state or ancilla cells and no per-bit carry
logic is emitted. -/
theorem comparator_trivial_cases (n : Nat) (value : Int) :
    (value ≤ 0 →
      comparatorGates n value true = [Gate.x n] ∧ comparatorGates n value false = [])
    ∧ ((2 : Int) ^ n ≤ value →
      comparatorGates n value true = [] ∧ comparatorGates n value false = [Gate.x n]) := by
  constructor
  · intro h
    constructor <;> simp [comparatorGates, h]
  · intro h
    have hpow : (0 : Int) < 2 ^ n := by positivity
    have h0 : ¬ (value ≤ 0) := by omega
    have h1 : ¬ (value < (2 : Int) ^ n) := by omega
    constructor <;> simp [comparatorGates, h0, h1]

theorem comparator_trivial_cases_witness :
    comparatorGates 3 (-1) true = [Gate.x 3] ∧ comparatorGates 3 8 false = [Gate.x 3] :=
  ⟨((comparator_trivial_cases 3 (-1)).1 (by norm_num)).1,
   ((comparator_trivial_cases 3 8).2 (by norm_num)).2⟩

theorem bitsToNat_range_map (n : Nat) : ∀ t, t < 2 ^ n →
    bitsToNat ((List.range n).map (fun i => if t.testBit i then 1 else 0)) = t := by
  induction n with
  | zero =>
    intro t ht
    have h0 : t = 0 := by omega
    subst h0
    rfl
  | succ n ih =>
    intro t ht
    rw [List.range_succ_eq_map, List.map_cons, List.map_map]
    have hcomp : ((fun i => if t.testBit i then (1 : Nat) else 0) ∘ Nat.succ) =
        (fun i => if (t / 2).testBit i then (1 : Nat) else 0) := by
      funext i
      simp [Function.comp, Nat.testBit_succ]
    rw [hcomp]
    have hpow : 2 ^ (n + 1) = 2 ^ n * 2 := pow_succ 2 n
    have hdiv : t / 2 < 2 ^ n := by omega
    show (if t.testBit 0 then 1 else 0) + 2 * bitsToNat _ = t
    rw [ih (t / 2) hdiv]
    rcases Nat.mod_two_eq_zero_or_one t with h | h <;>
      simp [Nat.testBit_zero, h] <;> omega

theorem bitLenAux_le : ∀ fuel m k, m ≤ fuel → m < 2 ^ k → 1 ≤ k → bitLenAux fuel m ≤ k := by
  intro fuel
  induction fuel with
  | zero =>
    intro m k _ _ hk
    simpa [bitLenAux] using hk
  | succ fuel ih =>
    intro m k hm hk2 hk1
    rw [bitLenAux]
    by_cases h2 : m < 2
    · rw [if_pos h2]
      exact hk1
    · rw [if_neg h2]
      have hk2' : 2 ≤ k := by
        by_contra hcon
        have hk1' : k = 1 := by omega
        subst hk1'
        norm_num at hk2
        omega
      have hpow : 2 ^ (k - 1) * 2 = 2 ^ k := by
        have heq : k - 1 + 1 = k := by omega
        calc 2 ^ (k - 1) * 2 = 2 ^ (k - 1 + 1) := (pow_succ 2 (k - 1)).symm
          _ = 2 ^ k := by rw [heq]
      have hrec := ih (m / 2) (k - 1) (by omega) (by omega) (by omega)
      omega

theorem pyBinLength_le (m k : Nat) (hm : m < 2 ^ k) (hk : 1 ≤ k) : pyBinLength m ≤ k :=
  bitLenAux_le m m k le_rfl hm hk

/-- Claim C4: for every width `n >= 1` and every value `L` with
`0 < L < 2^n`, the two's-complement encoder returns a list of exactly `n`
bits, ordered least-significant first, whose binary value is
`2^n - ceil(L)`; as a Lean function it is pure in `(n, L)` by construction. -/
theorem twos_complement_encoding (n : Nat) (L : ℚ) (hn : 1 ≤ n) (h0 : 0 < L)
    (h2 : L < 2 ^ n) :
    (getTwosComplement n L).length = n ∧
    (bitsToNat (getTwosComplement n L) : Int) = 2 ^ n - Int.ceil L := by
  have hc1 : 1 ≤ Int.ceil L := Int.ceil_pos.mpr h0
  have hc2 : Int.ceil L ≤ 2 ^ n := by
    rw [Int.ceil_le]
    push_cast
    exact le_of_lt h2
  have htcv : ((((2 : Int) ^ n - Int.ceil L).toNat : Int)) = 2 ^ n - Int.ceil L :=
    Int.toNat_of_nonneg (by omega)
  have hcast : ((2 : Int)) ^ n = ((2 ^ n : Nat) : Int) := by push_cast; ring
  have htclt : ((2 : Int) ^ n - Int.ceil L).toNat < 2 ^ n := by omega
  have hlen : max n (pyBinLength ((2 : Int) ^ n - Int.ceil L).toNat) = n := by
    have := pyBinLength_le _ n htclt hn
    omega
  have hform : getTwosComplement n L =
      (List.range n).map
        (fun i => if ((2 : Int) ^ n - Int.ceil L).toNat.testBit i then 1 else 0) := by
    simp only [getTwosComplement]
    rw [hlen]
  constructor
  · rw [hform]
    simp
  · rw [hform, bitsToNat_range_map n _ htclt, htcv]

theorem twos_complement_encoding_witness :
    (getTwosComplement 3 5).length = 3 ∧
    (bitsToNat (getTwosComplement 3 5) : Int) = 2 ^ 3 - Int.ceil (5 : ℚ) :=
  twos_complement_encoding 3 5 (by norm_num) (by norm_num) (by norm_num)

/-! ## Claim C5: the piecewise-linear telescoping identity -/

theorem sumTo_congr (f g : Nat → ℚ) : ∀ k, (∀ i, i < k → f i = g i) → sumTo f k = sumTo g k := by
  intro k
  induction k with
  | zero => intro _; rfl
  | succ k ih =>
    intro h
    rw [sumTo, sumTo, ih (fun i hi => h i (by omega)), h k (by omega)]

theorem slopeAcc_fst_add_snd (s : Nat → ℚ) (i : Nat) :
    (slopeAcc s i).1 + (slopeAcc s i).2 = s i := by
  cases i with
  | zero => simp [slopeAcc]
  | succ i => simp [slopeAcc]

theorem slopeAcc_fst_succ (s : Nat → ℚ) (i : Nat) :
    (slopeAcc s (i + 1)).1 = (slopeAcc s i).1 + (slopeAcc s i).2 := rfl

theorem offsetAcc_fst_add_snd (bp s b : Nat → ℚ) (i : Nat) :
    (offsetAcc bp s b i).1 + (offsetAcc bp s b i).2 = b i - s i * bp i := by
  cases i with
  | zero => simp [offsetAcc]
  | succ i => simp [offsetAcc]

theorem sum_prefix_all (x : ℚ) (bp s b : Nat → ℚ) :
    ∀ k, (∀ j, j < k → bp j ≤ x) →
      sumTo (fun i => (if bp i ≤ x then (1 : ℚ) else 0) *
          (x * (slopeAcc s i).2 + (offsetAcc bp s b i).2)) k =
        x * (slopeAcc s k).1 + (offsetAcc bp s b k).1 := by
  intro k
  induction k with
  | zero =>
    intro _
    simp [sumTo, slopeAcc, offsetAcc]
  | succ k ih =>
    intro h
    have hS : (slopeAcc s (k + 1)).1 = (slopeAcc s k).1 + (slopeAcc s k).2 := rfl
    have hO : (offsetAcc bp s b (k + 1)).1 =
        (offsetAcc bp s b k).1 + (offsetAcc bp s b k).2 := rfl
    rw [sumTo, ih (fun j hj => h j (by omega)), if_pos (h k (by omega)), hS, hO]
    ring

theorem sum_eq_lastBreakpoint (x : ℚ) (bps : List Int) (s b : Nat → ℚ)
    (hbmono : ∀ i j, i < j → j < bps.length → bps.getD i 0 < bps.getD j 0) :
    ∀ k, k ≤ bps.length →
      sumTo (fun i => (if ((bps.getD i 0 : Int) : ℚ) ≤ x then (1 : ℚ) else 0) *
          (x * (slopeAcc s i).2 +
            (offsetAcc (fun j => ((bps.getD j 0 : Int) : ℚ)) s b i).2)) k =
        (match lastBreakpointIndex bps x k with
          | none => 0
          | some j => s j * (x - ((bps.getD j 0 : Int) : ℚ)) + b j) := by
  intro k
  induction k with
  | zero => intro _; rfl
  | succ k ih =>
    intro hk
    have hunfold : lastBreakpointIndex bps x (k + 1) =
        (if ((bps.getD k 0 : Int) : ℚ) ≤ x then some k else lastBreakpointIndex bps x k) := rfl
    by_cases hc : ((bps.getD k 0 : Int) : ℚ) ≤ x
    · have hall : ∀ j, j < k + 1 → ((bps.getD j 0 : Int) : ℚ) ≤ x := by
        intro j hj
        rcases Nat.lt_succ_iff_lt_or_eq.mp hj with hj' | hj'
        · have hlt : bps.getD j 0 < bps.getD k 0 := hbmono j k hj' (by omega)
          have : ((bps.getD j 0 : Int) : ℚ) < ((bps.getD k 0 : Int) : ℚ) := by
            exact_mod_cast hlt
          linarith
        · subst hj'; exact hc
      rw [sum_prefix_all x (fun j => ((bps.getD j 0 : Int) : ℚ)) s b (k + 1) hall,
          hunfold, if_pos hc]
      have hS : (slopeAcc s (k + 1)).1 = s k := by
        rw [slopeAcc_fst_succ, slopeAcc_fst_add_snd]
      have hO : (offsetAcc (fun j => ((bps.getD j 0 : Int) : ℚ)) s b (k + 1)).1 =
          b k - s k * ((bps.getD k 0 : Int) : ℚ) := by
        have h1 : (offsetAcc (fun j => ((bps.getD j 0 : Int) : ℚ)) s b (k + 1)).1 =
            (offsetAcc (fun j => ((bps.getD j 0 : Int) : ℚ)) s b k).1 +
              (offsetAcc (fun j => ((bps.getD j 0 : Int) : ℚ)) s b k).2 := rfl
        rw [h1, offsetAcc_fst_add_snd]
      rw [hS, hO]
      ring
    · rw [sumTo, ih (by omega), hunfold, if_neg hc, if_neg hc]
      ring

/-- Claim C5: for strictly increasing breakpoints with matching slope/offset
lists and any `x` in the domain `[0, 2^n)`, the reference function
`PiecewiseLinearRotation.evaluate` — the telescoping sum over all mapped
slope/offset terms whose breakpoint is `<= x` — equals direct piecewise
evaluation (`0` below the first breakpoint, else `a_j (x - x_j) + b_j` for
the segment of the last breakpoint `x_j <= x`). -/
theorem piecewise_evaluate_eq_direct (num_state_qubits : Nat) (bps : List Int)
    (slopes offsets : List ℚ) (basis : PauliBasis)
    (hlen1 : slopes.length = bps.length) (hlen2 : offsets.length = bps.length)
    (hJ : 0 < bps.length) (hmono : bps.Pairwise (fun a b => a < b))
    (x : ℚ) (hx0 : 0 ≤ x) (hx1 : x < 2 ^ num_state_qubits) :
    (piecewiseLinearRotationInit num_state_qubits bps slopes offsets basis).evaluate x =
      piecewiseSpecValue bps slopes offsets x := by
  have hbmono : ∀ i j, i < j → j < bps.length → bps.getD i 0 < bps.getD j 0 := by
    intro i j hij hj
    have hi : i < bps.length := by omega
    have hget := List.pairwise_iff_get.mp hmono ⟨i, hi⟩ ⟨j, hj⟩ hij
    rw [List.getD_eq_get _ _ hi, List.getD_eq_get _ _ hj]
    exact hget
  have heval : (piecewiseLinearRotationInit num_state_qubits bps slopes offsets basis).evaluate x =
      sumTo (fun i => (if ((bps.getD i 0 : Int) : ℚ) ≤ x then (1 : ℚ) else 0) *
        (x * (slopeAcc (fun j => slopes.getD j 0) i).2 +
          (offsetAcc (fun j => ((bps.getD j 0 : Int) : ℚ)) (fun j => slopes.getD j 0)
            (fun j => offsets.getD j 0) i).2)) bps.length := by
    unfold PiecewiseLinearRotation.evaluate piecewiseLinearRotationInit
    refine sumTo_congr _ _ bps.length (fun i hi => ?_)
    rw [getD_range_map _ _ _ _ hi, getD_range_map _ _ _ _ hi]
  rw [heval,
      sum_eq_lastBreakpoint x bps (fun j => slopes.getD j 0) (fun j => offsets.getD j 0)
        hbmono bps.length le_rfl]
  rfl

theorem piecewise_evaluate_eq_direct_witness :
    (piecewiseLinearRotationInit 3 [1, 3] [1, 0] [0, 0] PauliBasis.y).evaluate 2 =
      piecewiseSpecValue [1, 3] [1, 0] [0, 0] 2 :=
  piecewise_evaluate_eq_direct 3 [1, 3] [1, 0] [0, 0] PauliBasis.y (by norm_num) (by norm_num)
    (by norm_num) (by norm_num) 2 (by norm_num) (by norm_num)

/-! ## Claim C10: construction emits no instructions -/

/-- Claim C10: a freshly constructed `PiecewiseLinearRotation` contains no
gate instruction: the constructor stores the parameters, computes the mapped
slopes/offsets and allocates the registers, and never invokes the
gate-emitting `_build`, so the publicly observable instruction sequence is
empty for every parameter set. -/
theorem piecewise_init_emits_no_gates (num_state_qubits : Nat) (breakpoints : List Int)
    (slopes offsets : List ℚ) (basis : PauliBasis) :
    (piecewiseLinearRotationInit num_state_qubits breakpoints slopes offsets basis).data = [] :=
  rfl

/-! ## Claim C6: weighted adder register sizing -/

theorem cast_sum_list (l : List Nat) : (l.map (fun w => ((w : Nat) : ℚ))).sum = ((l.sum : Nat) : ℚ) := by
  induction l with
  | nil => simp
  | cons a l ih =>
    rw [List.map_cons, List.sum_cons, List.sum_cons, ih]
    push_cast
    ring

/-- Claim C6: for every weight list with positive integer sum, the sum
register width is `m = floor(log2 (sum of weights)) + 1` (characterized by
`2^(m-1) <= sum < 2^m`), and the exposed ancilla count is `m - 1` when
`m <= 2` and `m` when `m > 2`. -/
theorem weighted_adder_register_sizes (num_state_qubits : Nat) (weights : List Nat)
    (hpos : 0 < weights.sum) :
    getRequiredSumQubits (weights.map (fun w => ((w : Nat) : ℚ))) = (Nat.log 2 weights.sum : Int) + 1 ∧
    2 ^ Nat.log 2 weights.sum ≤ weights.sum ∧
    weights.sum < 2 ^ (Nat.log 2 weights.sum + 1) ∧
    (weightedAdderInit num_state_qubits (weights.map (fun w => ((w : Nat) : ℚ)))).num_ancillas =
      (if 2 < getRequiredSumQubits (weights.map (fun w => ((w : Nat) : ℚ)))
       then getRequiredSumQubits (weights.map (fun w => ((w : Nat) : ℚ)))
       else getRequiredSumQubits (weights.map (fun w => ((w : Nat) : ℚ))) - 1) := by
  have hm : getRequiredSumQubits (weights.map (fun w => ((w : Nat) : ℚ))) =
      (Nat.log 2 weights.sum : Int) + 1 := by
    unfold getRequiredSumQubits
    rw [cast_sum_list, Int.log_natCast]
  refine ⟨hm, Nat.pow_log_le_self 2 (by omega), Nat.lt_pow_succ_log_self (by norm_num) _, ?_⟩
  unfold weightedAdderInit WeightedAdder.num_ancillas
  by_cases h2 : 2 < getRequiredSumQubits (weights.map (fun w => ((w : Nat) : ℚ)))
  · rw [if_pos h2, if_pos h2]
    ring
  · rw [if_neg h2, if_neg h2]

theorem weighted_adder_register_sizes_witness :
    getRequiredSumQubits ([3].map (fun w => ((w : Nat) : ℚ))) =
      (Nat.log 2 ([3] : List Nat).sum : Int) + 1 ∧
    2 ^ Nat.log 2 ([3] : List Nat).sum ≤ ([3] : List Nat).sum ∧
    ([3] : List Nat).sum < 2 ^ (Nat.log 2 ([3] : List Nat).sum + 1) ∧
    (weightedAdderInit 1 ([3].map (fun w => ((w : Nat) : ℚ)))).num_ancillas =
      (if 2 < getRequiredSumQubits ([3].map (fun w => ((w : Nat) : ℚ)))
       then getRequiredSumQubits ([3].map (fun w => ((w : Nat) : ℚ)))
       else getRequiredSumQubits ([3].map (fun w => ((w : Nat) : ℚ))) - 1) :=
  weighted_adder_register_sizes 1 [3] (by norm_num)

/-! ## Claim C8: subtractor adder-width validation -/

/-- Claim C8: for every width `n` and caller-supplied adder, construction
fails with the descriptive error reporting both the expected width
`2*(n+1)` and the actual width `num_qubits - num_ancillas` exactly when the
two differ; on success the adder used has the compatible width (never a
wrong-width circuit), and with no adder supplied the default fixed-variant
Draper QFT adder of the compatible size is used. -/
theorem subtractor_adder_check (n : Nat) (adder : Adder) :
    (checkAdderIsCompatible n adder = Except.ok () ↔
      (adder.num_qubits : Int) - (adder.num_ancillas : Int) = 2 * ((n : Int) + 1)) ∧
    (checkAdderIsCompatible n adder =
        Except.error (checkAdderMessage (2 * ((n : Int) + 1))
          ((adder.num_qubits : Int) - (adder.num_ancillas : Int))) ↔
      (adder.num_qubits : Int) - (adder.num_ancillas : Int) ≠ 2 * ((n : Int) + 1)) ∧
    (subtractorAdder n none = Except.ok (draperQFTAdder (n + 1)) ∧
      ((draperQFTAdder (n + 1)).num_qubits : Int) -
        ((draperQFTAdder (n + 1)).num_ancillas : Int) = 2 * ((n : Int) + 1)) ∧
    (∀ used, subtractorAdder n (some adder) = Except.ok used →
      used = adder ∧ (used.num_qubits : Int) - (used.num_ancillas : Int) = 2 * ((n : Int) + 1)) := by
  by_cases h : (2 : Int) * ((n : Int) + 1) ≠ (adder.num_qubits : Int) - (adder.num_ancillas : Int)
  · have hcheck : checkAdderIsCompatible n adder =
        Except.error (checkAdderMessage (2 * ((n : Int) + 1))
          ((adder.num_qubits : Int) - (adder.num_ancillas : Int))) := by
      unfold checkAdderIsCompatible
      rw [if_pos h]
    refine ⟨?_, ?_, ⟨rfl, ?_⟩, ?_⟩
    · rw [hcheck]
      constructor
      · intro hcon
        exact Except.noConfusion hcon
      · intro heq
        exact absurd heq.symm h
    · rw [hcheck]
      constructor
      · intro _
        exact fun heq => h heq.symm
      · intro _
        rfl
    · unfold draperQFTAdder
      push_cast
      ring
    · intro used hused
      have hused' : (match checkAdderIsCompatible n adder with
          | Except.error e => (Except.error e : Except String Adder)
          | Except.ok _ => Except.ok adder) = Except.ok used := hused
      rw [hcheck] at hused'
      exact Except.noConfusion hused'
  · have heq : (adder.num_qubits : Int) - (adder.num_ancillas : Int) = 2 * ((n : Int) + 1) := by
      omega
    have hcheck : checkAdderIsCompatible n adder = Except.ok () := by
      unfold checkAdderIsCompatible
      rw [if_neg h]
    refine ⟨?_, ?_, ⟨rfl, ?_⟩, ?_⟩
    · rw [hcheck]
      exact ⟨fun _ => heq, fun _ => rfl⟩
    · rw [hcheck]
      constructor
      · intro hcon
        exact Except.noConfusion hcon
      · intro hcon
        exact absurd heq hcon
    · unfold draperQFTAdder
      push_cast
      ring
    · intro used hused
      have hused' : (match checkAdderIsCompatible n adder with
          | Except.error e => (Except.error e : Except String Adder)
          | Except.ok _ => Except.ok adder) = Except.ok used := hused
      rw [hcheck] at hused'
      have hu : used = adder := by
        injection hused' with h1
        exact h1.symm
      exact ⟨hu, by rw [hu]; exact heq⟩

theorem subtractor_adder_check_witness :
    ((Adder.mk 4 0 : Adder) = Adder.mk 4 0) ∧
    (((Adder.mk 4 0 : Adder).num_qubits : Int) - ((Adder.mk 4 0 : Adder).num_ancillas : Int) =
      2 * (((1 : Nat) : Int) + 1)) :=
  (subtractor_adder_check 1 (Adder.mk 4 0)).2.2.2 (Adder.mk 4 0) rfl

/-! ## Claim C7: the weighted adder's handling of a non-integer weight

Scalar evaluation lemmas for the failing input `weights = [4.7]`
(written `47/10` over `ℚ`). -/

theorem floor_47_10 : ⌊(47 / 10 : ℚ)⌋ = 4 := by norm_num

theorem pyInt_47_10 : pyInt (47 / 10 : ℚ) = 4 := by
  unfold pyInt
  rw [if_pos (by norm_num : (0 : ℚ) ≤ 47 / 10), floor_47_10]

theorem pyInt_4 : pyInt (4 : ℚ) = 4 := by
  unfold pyInt
  rw [if_pos (by norm_num : (0 : ℚ) ≤ 4)]
  norm_num

theorem pyInt_5 : pyInt (5 : ℚ) = 5 := by
  unfold pyInt
  rw [if_pos (by norm_num : (0 : ℚ) ≤ 5)]
  norm_num

theorem natLog_2_4 : Nat.log 2 4 = 2 :=
  Nat.log_eq_of_pow_le_of_lt_pow (by norm_num : 2 ^ 2 ≤ 4) (by norm_num : 4 < 2 ^ (2 + 1))

theorem natLog_2_5 : Nat.log 2 5 = 2 :=
  Nat.log_eq_of_pow_le_of_lt_pow (by norm_num : 2 ^ 2 ≤ 5) (by norm_num : 5 < 2 ^ (2 + 1))

theorem intLog_47_10 : Int.log 2 (47 / 10 : ℚ) = 2 := by
  rw [Int.log_of_one_le_right _ (by norm_num : (1 : ℚ) ≤ 47 / 10)]
  have hf : ⌊(47 / 10 : ℚ)⌋₊ = 4 := by
    rw [Nat.floor_eq_iff (by norm_num : (0 : ℚ) ≤ 47 / 10)]
    norm_num
  rw [hf, natLog_2_4]
  rfl

theorem intLog_4 : Int.log 2 (4 : ℚ) = 2 := by
  rw [show (4 : ℚ) = ((4 : Nat) : ℚ) by norm_num, Int.log_natCast, natLog_2_4]
  rfl

theorem intLog_5 : Int.log 2 (5 : ℚ) = 2 := by
  rw [show (5 : ℚ) = ((5 : Nat) : ℚ) by norm_num, Int.log_natCast, natLog_2_5]
  rfl

theorem sumQubits_toNat (w : ℚ) (h : Int.log 2 w = 2) :
    (getRequiredSumQubits [w]).toNat = 3 := by
  unfold getRequiredSumQubits
  have hs : ([w] : List ℚ).sum = w := by simp
  rw [hs, h]
  rfl

theorem weightBinary_47_10 : weightBinary 3 (47 / 10 : ℚ) = weightBinary 3 (4 : ℚ) := by
  unfold weightBinary
  rw [pyInt_47_10, pyInt_4]

theorem weightBinary_4 : weightBinary 3 (4 : ℚ) = [0, 0, 1] := by
  unfold weightBinary
  rw [pyInt_4]
  rfl

theorem weightBinary_5 : weightBinary 3 (5 : ℚ) = [1, 0, 1] := by
  unfold weightBinary
  rw [pyInt_5]
  rfl

theorem weightedAdderGates_single (w : ℚ) (hm : (getRequiredSumQubits [w]).toNat = 3)
    (hw : ¬ w = 0) :
    weightedAdderGates 1 [w] =
      appendMapW (fun j => wComputeStep 1 3 0 j ((weightBinary 3 w).getD j 0))
          (List.range (weightBinary 3 w).length)
        ++ appendMapW (fun j => wUncomputeStep 1 3 0 j ((weightBinary 3 w).getD j 0))
          (List.range (weightBinary 3 w).length).reverse := by
  unfold weightedAdderGates
  rw [hm]
  show wWeightGates 1 3 0 w ++ [] = _
  rw [List.append_nil]
  unfold wWeightGates
  rw [if_neg hw]

theorem npRoundQ_47_10 : npRoundQ (47 / 10 : ℚ) = 5 := by
  unfold npRoundQ
  rw [floor_47_10]
  norm_num

/-- Claim C7 fails on the code at `num_state_qubits = 1, weights = [4.7]`:
the constructor's warning condition fires (4.7 is not `np.isclose` to its
nearest integer `np.round(4.7) = 5`) and construction continues, but
`_build` formats `int(weight)` — truncation toward zero — so the gates
emitted are exactly those of weight `4`, and differ from the gates of the
rounded-to-nearest weight `5` that the claim (and the code's own log
message) promises. -/
theorem weighted_adder_rounding_bug :
    (¬ npIsCloseQ ((47 : ℚ) / 10) (npRoundQ ((47 : ℚ) / 10))) ∧
    npRoundQ ((47 : ℚ) / 10) = 5 ∧
    weightedAdderGates 1 [(47 : ℚ) / 10] = weightedAdderGates 1 [(4 : ℚ)] ∧
    weightedAdderGates 1 [(47 : ℚ) / 10] ≠ weightedAdderGates 1 [(5 : ℚ)] := by
  have hm47 : (getRequiredSumQubits [(47 : ℚ) / 10]).toNat = 3 :=
    sumQubits_toNat _ intLog_47_10
  have hm4 : (getRequiredSumQubits [(4 : ℚ)]).toNat = 3 := sumQubits_toNat _ intLog_4
  have hm5 : (getRequiredSumQubits [(5 : ℚ)]).toNat = 3 := sumQubits_toNat _ intLog_5
  refine ⟨?_, npRoundQ_47_10, ?_, ?_⟩
  · rw [npRoundQ_47_10]
    unfold npIsCloseQ npAtolQ npRtolQ
    rw [abs_of_nonpos (by norm_num : (47 : ℚ) / 10 - 5 ≤ 0),
        abs_of_nonneg (by norm_num : (0 : ℚ) ≤ 5)]
    norm_num
  · rw [weightedAdderGates_single _ hm47 (by norm_num),
        weightedAdderGates_single _ hm4 (by norm_num), weightBinary_47_10]
  · rw [weightedAdderGates_single _ hm47 (by norm_num),
        weightedAdderGates_single _ hm5 (by norm_num), weightBinary_47_10,
        weightBinary_4, weightBinary_5]
    decide

/-! ## Claim C9: gate skipping in the linear rotation synthesizer -/

theorem linear_rotation_crot_emitted (n : Nat) (slope offset : ℝ) (basis : PauliBasis)
    (i : Nat) :
    (LinGate.crot basis (slope * 2 ^ i) i ∈ linearRotationGates n slope offset basis) ↔
      (i < n ∧ ¬ rotationSkipped (slope * 2 ^ i)) := by
  unfold linearRotationGates
  rw [List.mem_append]
  constructor
  · rintro (hmem | hmem)
    · by_cases hs : rotationSkipped offset
      · rw [if_pos hs] at hmem
        simp at hmem
      · rw [if_neg hs] at hmem
        simp at hmem
    · rw [List.mem_flatten] at hmem
      obtain ⟨l, hl, hmem⟩ := hmem
      rw [List.mem_map] at hl
      obtain ⟨j, hj, rfl⟩ := hl
      rw [List.mem_range] at hj
      by_cases hs : rotationSkipped (slope * 2 ^ j)
      · rw [if_pos hs] at hmem
        simp at hmem
      · rw [if_neg hs, List.mem_singleton] at hmem
        injection hmem with h1 h2 h3
        subst h3
        exact ⟨hj, hs⟩
  · rintro ⟨hi, hs⟩
    right
    rw [List.mem_flatten]
    refine ⟨[LinGate.crot basis (slope * 2 ^ i) i], ?_, by simp⟩
    rw [List.mem_map]
    refine ⟨i, ?_, by rw [if_neg hs]⟩
    rw [List.mem_range]
    exact hi

theorem linear_rotation_rot_emitted (n : Nat) (slope offset : ℝ) (basis : PauliBasis) :
    (LinGate.rot basis offset ∈ linearRotationGates n slope offset basis) ↔
      ¬ rotationSkipped offset := by
  unfold linearRotationGates
  rw [List.mem_append]
  constructor
  · rintro (hmem | hmem)
    · by_cases hs : rotationSkipped offset
      · rw [if_pos hs] at hmem
        simp at hmem
      · exact hs
    · rw [List.mem_flatten] at hmem
      obtain ⟨l, hl, hmem⟩ := hmem
      rw [List.mem_map] at hl
      obtain ⟨j, hj, rfl⟩ := hl
      by_cases hs : rotationSkipped (slope * 2 ^ j)
      · rw [if_pos hs] at hmem
        simp at hmem
      · rw [if_neg hs] at hmem
        simp at hmem
  · intro hs
    left
    rw [if_neg hs]
    simp

/-- Claim C9, amended: in the linear rotation synthesizer the controlled
rotation of angle `slope * 2^i` for state bit `i` is emitted iff `i` indexes
a state bit and the fractional part of the angle divided by `4π` is NOT
within `np.isclose` tolerance (absolute tolerance `1e-8`) of `0`; likewise
the uncontrolled offset rotation is emitted iff the fractional part of
`offset/(4π)` is not within tolerance of `0`.  In particular every exact
multiple of `4π` is skipped, but angles slightly above a multiple (within
`4π * 1e-8`) are skipped as well. -/
theorem linear_rotation_emission (n : Nat) (slope offset : ℝ) (basis : PauliBasis) (i : Nat) :
    ((LinGate.crot basis (slope * 2 ^ i) i ∈ linearRotationGates n slope offset basis) ↔
      (i < n ∧ ¬ npIsCloseR (Int.fract (slope * 2 ^ i / 4 / Real.pi)) 0)) ∧
    ((LinGate.rot basis offset ∈ linearRotationGates n slope offset basis) ↔
      ¬ npIsCloseR (Int.fract (offset / 4 / Real.pi)) 0) :=
  ⟨linear_rotation_crot_emitted n slope offset basis i,
   linear_rotation_rot_emitted n slope offset basis⟩

theorem rotationSkipped_zero : rotationSkipped (0 : ℝ) := by
  unfold rotationSkipped npIsCloseR npAtolR npRtolR
  rw [show (0 : ℝ) / 4 / Real.pi = 0 by ring, Int.fract_zero]
  norm_num

open scoped Classical in
/-- Claim C9 as frozen is false on the code: with `n = 1`,
`slope = 4π * 10⁻⁹` and `offset = 0`, the controlled-rotation angle
`slope * 2^0` is not a multiple of `4π`, yet the synthesizer emits no gate
at all, because `np.isclose((θ/4/π) % 1, 0)` also holds when the fractional
part is merely within the `1e-8` absolute tolerance of zero. -/
theorem linear_rotation_claim_counterexample :
    (∀ k : Int, 4 * Real.pi / 1000000000 * 2 ^ (0 : Nat) ≠ 4 * Real.pi * k) ∧
    linearRotationGates 1 (4 * Real.pi / 1000000000) 0 PauliBasis.y = [] := by
  have hpi : (4 : ℝ) * Real.pi ≠ 0 := by positivity
  have hsimp : 4 * Real.pi / 1000000000 * 2 ^ (0 : Nat) / 4 / Real.pi = 1 / 1000000000 := by
    rw [pow_zero, mul_one]
    field_simp
    ring
  constructor
  · intro k hcon
    rw [pow_zero, mul_one] at hcon
    have hk : ((k : ℝ)) = 1 / 1000000000 := by
      have h4 : 4 * Real.pi * (1 / 1000000000) = 4 * Real.pi * k := by
        rw [← hcon]
        ring
      have := mul_left_cancel₀ hpi h4
      rw [← this]
    have hk0 : (0 : ℝ) < (k : ℝ) := by
      rw [hk]
      norm_num
    have hk1 : ((k : ℝ)) < 1 := by
      rw [hk]
      norm_num
    have hk0' : 0 < k := by exact_mod_cast hk0
    have hk1' : k < 1 := by exact_mod_cast hk1
    omega
  · have hskip1 : rotationSkipped (4 * Real.pi / 1000000000 * 2 ^ (0 : Nat)) := by
      unfold rotationSkipped npIsCloseR npAtolR npRtolR
      rw [hsimp, Int.fract_eq_self.mpr ⟨by norm_num, by norm_num⟩]
      rw [abs_of_nonneg (by norm_num : (0 : ℝ) ≤ 1 / 1000000000 - 0)]
      norm_num
    unfold linearRotationGates
    rw [if_pos rotationSkipped_zero]
    show List.flatten
      [if rotationSkipped (4 * Real.pi / 1000000000 * 2 ^ (0 : Nat)) then []
       else [LinGate.crot PauliBasis.y (4 * Real.pi / 1000000000 * 2 ^ (0 : Nat)) 0]] = []
    rw [if_pos hskip1]
    rfl
